import Mathlib

/-!
Verification of the OxI file-index and search core against its source.

The Rust source under `src/src-tauri/src/` is embedded shallowly:
strings are `List Char`, byte buffers are `List Nat` (each entry < 256 by
construction at the call sites we evaluate), signed 64-bit sizes are `Int`,
fallible operations return `Option`/`Except`, and SQLite effects are
modelled by explicit state passing over a list of rows together with
fault-injection oracles for row-level write failures.
-/

namespace OxI

/-- The unit of persistence, `FileRecord` (declared in the crate's types
module; its fields are exactly those constructed in `indexer.rs` lines
158-166/201-209 and `mft_indexer.rs` lines 173-181 and consumed by
`db.rs`). -/
structure FileRecord where
  path : List Char
  name : List Char
  extension : Option (List Char)
  file_size : Option Int
  is_dir : Bool
  modified_time : List Char
  last_indexed : List Char
deriving DecidableEq, Repr

/-! ## Index store (`db.rs`)

The store state is the list of rows of the `search_index` table.
`path` is `UNIQUE`, so `INSERT OR REPLACE` first deletes any row with the
same `path` and then appends the new row. -/

/-- One `INSERT OR REPLACE INTO search_index ...` execution
(the statement text of `db.rs` lines 98-99 and 115-116). -/
def upsertRow (db : List FileRecord) (r : FileRecord) : List FileRecord :=
  (db.filter (fun row => row.path ≠ r.path)) ++ [r]

/-- Embeds `Database::upsert_file` (`db.rs` lines 87-103) with a fault-injection
oracle `fail`: the row either fails (store unchanged, error returned) or is
inserted-or-replaced. -/
def upsert_file (fail : FileRecord → Bool) (db : List FileRecord)
    (r : FileRecord) : Except Unit (List FileRecord) :=
  if fail r then .error () else .ok (upsertRow db r)

/-- The per-row execution loop inside the transaction of
`Database::upsert_batch` (`db.rs` lines 119-129): thread the working state
through each row, aborting on the first row the oracle fails. -/
def txRun (fail : FileRecord → Bool) :
    List FileRecord → List FileRecord → Option (List FileRecord)
  | db, [] => some db
  | db, f :: fs => if fail f then none else txRun fail (upsertRow db f) fs

/-- Embeds `Database::upsert_batch` (`db.rs` lines 106-134). An empty batch
returns at once. Otherwise all rows execute inside one transaction; on any
row error the `?` operator drops the transaction, which rolls it back, so
the connection state stays the pre-batch `db` and the caller sees the
error. On success the transaction commits the fully updated state. -/
def upsert_batch (fail : FileRecord → Bool) (db : List FileRecord)
    (files : List FileRecord) : Except Unit (List FileRecord) :=
  if files.isEmpty then .ok db
  else
    match txRun fail db files with
    | some db2 => .ok db2
    | none => .error ()

/-- The store state a caller observes after `upsert_batch`: the committed
state on success, the rolled-back (pre-batch) state on error. -/
def upsertBatchState (fail : FileRecord → Bool) (db : List FileRecord)
    (files : List FileRecord) : List FileRecord :=
  match upsert_batch fail db files with
  | .ok db2 => db2
  | .error _ => db

/-- Bytewise (SQLite BINARY collation) strict order on strings, used by
`MAX(last_indexed)`. -/
def strLt : List Char → List Char → Bool
  | [], [] => false
  | [], _ :: _ => true
  | _ :: _, [] => false
  | a :: as, b :: bs => if a < b then true else if b < a then false else strLt as bs

/-- Embeds `Database::get_last_indexed_time` (`db.rs` lines 214-222).
`SELECT MAX(last_indexed)` yields SQL NULL on an empty table; the row
getter then fails with a column-type error, and either that failure or a
query failure (`queryFails`) is swallowed by `.ok()`, leaving `None`.
The function itself always returns `Ok`. -/
def get_last_indexed_time (queryFails : Bool) (db : List FileRecord) :
    Except Unit (Option (List Char)) :=
  .ok
    (if queryFails then none
     else
       match db with
       | [] => none
       | r :: rs =>
         some ((rs.map (fun x => x.last_indexed)).foldl
           (fun a b => if strLt a b then b else a)
           r.last_indexed))

/-! ## Search semantics (`db.rs` lines 160-212)

`Database::search_files` builds `... WHERE name LIKE ?1 [AND extension IN
(...)] [AND file_size >= ?] [AND file_size <= ?] ORDER BY is_dir DESC,
name ASC LIMIT ?` and binds `%query%`. The connection never sets
`PRAGMA case_sensitive_like`, so SQLite's default `LIKE` applies: `%`
matches any run, `_` matches any one character, and plain characters
compare after ASCII-only lower-casing (case-insensitive for `A`-`Z`,
exact for everything else). -/

/-- ASCII-only lower-casing, as SQLite's default `LIKE` applies to both
operands. -/
def asciiLower (c : Char) : Char :=
  if 'A' ≤ c ∧ c ≤ 'Z' then Char.ofNat (c.toNat + 32) else c

/-- SQLite default `LIKE` matching of a pattern against a text: `%`
matches any run of characters, `_` any single character, and a plain
character matches up to ASCII lower-casing. -/
def likeMatch : List Char → List Char → Bool
  | [], ts => ts.isEmpty
  | p :: ps, ts =>
    if p = '%' then
      likeMatch ps ts ||
        (match ts with
         | [] => false
         | _ :: ts2 => likeMatch (p :: ps) ts2)
    else
      match ts with
      | [] => false
      | t :: ts2 =>
        if p = '_' then likeMatch ps ts2
        else (asciiLower p = asciiLower t) && likeMatch ps ts2
termination_by p t => (t.length, p.length)

/-- The bound pattern `format!("%\x7b\x7d%", query)` of `db.rs` line 169. -/
def likePattern (q : List Char) : List Char :=
  '%' :: q ++ ['%']

/-- The rows satisfying the `WHERE name LIKE ?1` clause: the candidate set
of `search_files` before the extension/size filters and `LIMIT` apply. -/
def searchCandidates (db : List FileRecord) (q : List Char) : List FileRecord :=
  db.filter (fun r => likeMatch (likePattern q) r.name)

/-- Embeds `AND extension IN (...)`, added only when `extensions` is present and
non-empty; a SQL NULL `extension` is never `IN` any list. -/
def extFilterOk (exts : Option (List (List Char))) (r : FileRecord) : Bool :=
  match exts with
  | none => true
  | some es =>
    if es.isEmpty then true
    else
      match r.extension with
      | none => false
      | some e => es.contains e

/-- Embeds `AND file_size >= ?`; a SQL NULL `file_size` fails the comparison. -/
def minSizeOk (minSize : Option Int) (r : FileRecord) : Bool :=
  match minSize with
  | none => true
  | some m =>
    match r.file_size with
    | none => false
    | some s => m ≤ s

/-- Embeds `AND file_size <= ?`; a SQL NULL `file_size` fails the comparison. -/
def maxSizeOk (maxSize : Option Int) (r : FileRecord) : Bool :=
  match maxSize with
  | none => true
  | some m =>
    match r.file_size with
    | none => false
    | some s => s ≤ m

/-- Embeds `ORDER BY is_dir DESC, name ASC`: directories first, then bytewise
ascending names. -/
def rowLe (a b : FileRecord) : Bool :=
  if a.is_dir = b.is_dir then !(strLt b.name a.name) else a.is_dir

/-- Insertion of one row into a sorted list (the `ORDER BY` result order). -/
def insertSorted (r : FileRecord) : List FileRecord → List FileRecord
  | [] => [r]
  | x :: xs => if rowLe r x then r :: x :: xs else x :: insertSorted r xs

/-- Sort rows according to the `ORDER BY` clause. -/
def sortRows : List FileRecord → List FileRecord
  | [] => []
  | x :: xs => insertSorted x (sortRows xs)

/-- Embeds `Database::search_files` (`db.rs` lines 160-212): the rows produced by
the assembled query (filter, then order, then `LIMIT`). -/
def searchFilesDb (db : List FileRecord) (q : List Char)
    (exts : Option (List (List Char))) (minSize maxSize : Option Int)
    (limit : Nat) : List FileRecord :=
  (sortRows ((searchCandidates db q).filter
    (fun r => extFilterOk exts r && minSizeOk minSize r && maxSizeOk maxSize r))).take
    limit

/-! ## Command layer (`lib.rs`) -/

/-- Embeds `filters.min_size.map(|s| s as i64)` (`lib.rs` lines 59-60): the u64
value reinterpreted as a two's-complement i64. -/
def u64AsI64 (s : Nat) : Int :=
  if s < 2 ^ 63 then (s : Int) else (s : Int) - 2 ^ 64

/-- Embeds `file_size.map(|s| s as u64)` (`lib.rs` line 74): the i64 value
reinterpreted as a u64. -/
def i64AsU64 (s : Int) : Nat :=
  (s % 2 ^ 64).toNat

/-- Embeds `SearchFilters` (`types.rs` lines 27-33). -/
structure SearchFilters where
  extensions : Option (List (List Char))
  min_size : Option Nat
  max_size : Option Nat
  min_date : Option (List Char)
  max_date : Option (List Char)

/-- Embeds `SearchResult` (`types.rs` lines 15-24); `score` is the constant
placeholder `1.0`. -/
structure SearchResult where
  path : List Char
  name : List Char
  extension : Option (List Char)
  file_size : Option Nat
  is_dir : Bool
  modified_time : List Char
  score : Float

/-- Embeds `SearchResults` (`types.rs` lines 47-54). -/
structure SearchResults where
  query : List Char
  results : List SearchResult
  total : Nat
  page : Nat
  limit : Nat

/-- The row-to-`SearchResult` shaping of `lib.rs` lines 67-80. -/
def toSearchResult (r : FileRecord) : SearchResult :=
  { path := r.path, name := r.name, extension := r.extension,
    file_size := r.file_size.map i64AsU64, is_dir := r.is_dir,
    modified_time := r.modified_time, score := 1.0 }

/-- The `search_files` tauri command (`lib.rs` lines 36-89). The second
component of the result records whether the store was touched (the mutex
locked and a query executed); the early empty-query return never reaches
the store. Lock poisoning is outside the model (the lock is assumed to be
acquirable). -/
def search_files_cmd (query : List Char) (filters : SearchFilters)
    (page limit : Nat) (db : List FileRecord) :
    Except (List Char) SearchResults × Bool :=
  if query.isEmpty then
    (.ok { query := query, results := [], total := 0, page := page,
           limit := limit }, false)
  else
    let rows := searchFilesDb db query filters.extensions
      (filters.min_size.map u64AsI64) (filters.max_size.map u64AsI64) limit
    (.ok { query := query, results := rows.map toSearchResult,
           total := rows.length, page := page, limit := limit }, true)

/-- Embeds `Indexer::get_default_exclude_patterns` (`indexer.rs` lines 328-338). -/
def get_default_exclude_patterns : List (List Char) :=
  [".git".data, "node_modules".data, "target".data, ".DS_Store".data,
   "__pycache__".data, ".venv".data, "venv".data]

/-- The exclusion-pattern selection of the `reindex_path` command
(`lib.rs` lines 107-111): an empty caller-supplied list is replaced by the
defaults, and the chosen list is what `index_multiple_paths` runs with. -/
def reindexPatterns (exclude_patterns : List (List Char)) : List (List Char) :=
  if exclude_patterns.isEmpty then get_default_exclude_patterns
  else exclude_patterns

/-! ## Batch flushing (`indexer.rs` lines 106-147, `mft_indexer.rs` lines
214-251 — the two copies are textually identical in behaviour) -/

/-- Embeds `flush_batch`: attempt the bulk `upsert_batch`; on failure retry each
record individually via `upsert_file` and count successes. Returns
(store state, batch buffer afterwards, returned count). Both match arms of
the source return `Ok`, so a batch failure never surfaces as an error (the
only fallible step outside the model is the mutex acquisition).
`fallbackStep` is one iteration of the item-by-item retry loop. -/
def fallbackStep (failI : FileRecord → Bool) (acc : List FileRecord × Nat)
    (r : FileRecord) : List FileRecord × Nat :=
  match upsert_file failI acc.1 r with
  | .ok db2 => (db2, acc.2 + 1)
  | .error _ => acc

def flush_batch (failB failI : FileRecord → Bool) (db : List FileRecord)
    (batch : List FileRecord) : List FileRecord × List FileRecord × Nat :=
  if batch.isEmpty then (db, batch, 0)
  else
    match upsert_batch failB db batch with
    | .ok db2 => (db2, [], batch.length)
    | .error _ =>
      let r := batch.foldl (fallbackStep failI) ((db, 0) : List FileRecord × Nat)
      (r.1, [], r.2)

/-! ## Walker record construction (`indexer.rs` lines 149-227) -/

/-- The `FileRecord` the walker pushes for a directory entry
(`indexer.rs` lines 158-166). -/
def walkerDirRecord (path name mt li : List Char) : FileRecord :=
  { path := path, name := name, extension := none, file_size := none,
    is_dir := true, modified_time := mt, last_indexed := li }

/-- The `FileRecord` the walker pushes for a file entry
(`indexer.rs` lines 201-209); `ext` is the already-computed
`".{ext}"`-shaped extension and `size` the metadata length. -/
def walkerFileRecord (path name : List Char) (ext : Option (List Char))
    (size : Int) (mt li : List Char) : FileRecord :=
  { path := path, name := name, extension := ext, file_size := some size,
    is_dir := false, modified_time := mt, last_indexed := li }

/-! ## MFT fixups (`mft_indexer.rs` lines 254-294)

Byte buffers are `List Nat` with one entry per byte. A Rust panic (index
out of bounds, or the usize underflow in `(i + 1) * bytes_per_sector - 2`
— a debug-build subtraction panic, and in release a wrapped value whose
subsequent slice index panics) is modelled as `none`. -/

/-- Position of the last two bytes of sector `i + 1` of a record:
`position_of_strip = (i + 1) * bytes_per_sector - 2`
(`mft_indexer.rs` line 275). -/
def sectorEndPos (bps i : Nat) : Nat :=
  (i + 1) * bps - 2

/-- The `for i in 0..(usa_count - 1)` sweep of `apply_fixups`: `i` is the
current index and the second argument the iterations left. -/
def fixupLoop (fixup_data : List Nat) (usn bps : Nat) :
    Nat → Nat → List Nat → Option (Bool × List Nat)
  | _, 0, buf => some (true, buf)
  | i, n + 1, buf =>
    let idx := (i + 1) * 2
    match fixup_data.get? idx, fixup_data.get? (idx + 1) with
    | some lo, some hi =>
      if (i + 1) * bps < 2 then none
      else
        if sectorEndPos bps i + 2 > buf.length then some (false, buf)
        else
          match buf.get? (sectorEndPos bps i),
              buf.get? (sectorEndPos bps i + 1) with
          | some dlo, some dhi =>
            if dlo + 256 * dhi ≠ usn then some (false, buf)
            else
              fixupLoop fixup_data usn bps (i + 1) n
                ((buf.set (sectorEndPos bps i) lo).set
                  (sectorEndPos bps i + 1) hi)
          | _, _ => none
    | _, _ => none

/-- The `i`-th sector-end check of the fixup sweep against a buffer: the
two bytes at the sector-end position are within bounds and decode to the
update sequence number. -/
def sectorOk (buf : List Nat) (usn bps : Nat) (i : Nat) : Prop :=
  sectorEndPos bps i + 2 ≤ buf.length ∧
  buf.getD (sectorEndPos bps i) 0 +
    256 * buf.getD (sectorEndPos bps i + 1) 0 = usn

instance (buf : List Nat) (usn bps i : Nat) :
    Decidable (sectorOk buf usn bps i) := by
  unfold sectorOk
  infer_instance

/-- The buffer after the fixup sweep restored the sector-end words of
sectors `i, …, i + n - 1` from the update sequence array entries. -/
def restoreSectors (fd : List Nat) (bps : Nat) :
    List Nat → Nat → Nat → List Nat
  | buf, _, 0 => buf
  | buf, i, n + 1 =>
    restoreSectors fd bps
      ((buf.set (sectorEndPos bps i) (fd.getD ((i + 1) * 2) 0)).set
        (sectorEndPos bps i + 1) (fd.getD ((i + 1) * 2 + 1) 0))
      (i + 1) n

/-- The u16 little-endian field at offset 4 of an MFT record header
(`usa_offset`). -/
def usaOffset (buffer : List Nat) : Nat :=
  buffer.getD 4 0 + 256 * buffer.getD 5 0

/-- The u16 little-endian field at offset 6 of an MFT record header
(`usa_count`). -/
def usaCount (buffer : List Nat) : Nat :=
  buffer.getD 6 0 + 256 * buffer.getD 7 0

/-- The update sequence array slice
`buffer[usa_offset .. usa_offset + usa_count * 2]`
(`mft_indexer.rs` line 269). -/
def usaData (buffer : List Nat) : List Nat :=
  (buffer.drop (usaOffset buffer)).take (usaCount buffer * 2)

/-- The update sequence number: the first word of the USA slice
(`mft_indexer.rs` line 270). -/
def recordUsn (buffer : List Nat) : Nat :=
  (usaData buffer).getD 0 0 + 256 * (usaData buffer).getD 1 0

/-- Embeds `apply_fixups` (`mft_indexer.rs` lines 254-294). Returns
`some (flag, buffer)` for a normal return and `none` for a panic. -/
def apply_fixups (buffer : List Nat) (bps : Nat) : Option (Bool × List Nat) :=
  if buffer.length < 8 then some (false, buffer)
  else
    if usaOffset buffer + usaCount buffer * 2 > buffer.length then
      some (false, buffer)
    else
      match (usaData buffer).get? 0, (usaData buffer).get? 1 with
      | some u0, some u1 =>
        fixupLoop (usaData buffer) (u0 + 256 * u1) bps 0
          (usaCount buffer - 1) buffer
      | _, _ => none

/-! ## MFT record parsing (`mft_indexer.rs` lines 85-196)

The cursor reads (`read_u8`/`read_u16`/`read_u32`/`read_u64` behind the
`?` operator) error out of `index_drive` when they run past the end of the
1024-byte buffer; that abort is modelled as `none`. -/

/-- Embeds `read_u8` at an absolute cursor position. -/
def readU8 (buf : List Nat) (p : Nat) : Option Nat :=
  buf.get? p

/-- Embeds `read_u16::<LittleEndian>` at an absolute cursor position. -/
def readU16 (buf : List Nat) (p : Nat) : Option Nat :=
  match buf.get? p, buf.get? (p + 1) with
  | some a, some b => some (a + 256 * b)
  | _, _ => none

/-- Embeds `read_u32::<LittleEndian>` at an absolute cursor position. -/
def readU32 (buf : List Nat) (p : Nat) : Option Nat :=
  match buf.get? p, buf.get? (p + 1), buf.get? (p + 2), buf.get? (p + 3) with
  | some a, some b, some c, some d =>
    some (a + 256 * b + 65536 * c + 16777216 * d)
  | _, _, _, _ => none

/-- Embeds `read_u64::<LittleEndian>` at an absolute cursor position. -/
def readU64 (buf : List Nat) (p : Nat) : Option Nat :=
  match readU32 buf p, readU32 buf (p + 4) with
  | some l, some h => some (l + 4294967296 * h)
  | _, _ => none

/-- Embeds `String::from_utf16`: decodes UTF-16 code units, pairing surrogates;
`none` on an unpaired surrogate (the `Err` case, which leaves the
scanner's filename unchanged). -/
def decodeUtf16 : List Nat → Option (List Char)
  | [] => some []
  | [u] =>
    if u < 0xD800 ∨ 0xE000 ≤ u then
      (decodeUtf16 []).map (fun rest => Char.ofNat u :: rest)
    else none
  | u :: v :: us2 =>
    if u < 0xD800 ∨ 0xE000 ≤ u then
      (decodeUtf16 (v :: us2)).map (fun rest => Char.ofNat u :: rest)
    else if u < 0xDC00 then
      if 0xDC00 ≤ v ∧ v < 0xE000 then
        (decodeUtf16 us2).map
          (fun rest =>
            Char.ofNat (0x10000 + (u - 0xD800) * 0x400 + (v - 0xDC00)) :: rest)
      else none
    else none

/-- The mutable decoding state of the attribute walk: `filename`,
`file_size`, `is_dir` (`mft_indexer.rs` lines 94-96). -/
structure AttrState where
  filename : Option (List Char)
  file_size : Option Int
  is_dir : Bool
deriving DecidableEq, Repr

/-- The resident-FILENAME-attribute decoding (`mft_indexer.rs` lines
112-156), given the attribute start position `s`. Mirrors the source's
cursor motions: flags are read at `content + 48`, the size at
`content + 60`, name length/namespace at `content + 64`, and the UTF-16
name at `content + 66`; a failed `read_exact` of the name bytes or a
UTF-16 decode error leaves the filename unchanged. -/
def fileNameAttr (buf : List Nat) (s : Nat) (st : AttrState) : Option AttrState :=
  match readU8 buf (s + 8) with
  | none => none
  | some nr =>
    if nr ≠ 0 then some st
    else
      match readU16 buf (s + 20) with
      | none => none
      | some content_offset =>
        let c := s + content_offset
        match readU32 buf (c + 48) with
        | none => none
        | some fflags =>
          let st1 : AttrState := { st with is_dir := fflags.testBit 28 }
          match readU64 buf (c + 60) with
          | none => none
          | some size =>
            let st2 : AttrState := { st1 with file_size := some (u64AsI64 size) }
            match readU8 buf (c + 64) with
            | none => none
            | some name_len =>
              match readU8 buf (c + 65) with
              | none => none
              | some _nspace =>
                let nbytes := (buf.drop (c + 66)).take (name_len * 2)
                if nbytes.length < name_len * 2 then some st2
                else
                  let u16s := (List.range name_len).map
                    (fun i => nbytes.getD (2 * i) 0 + 256 * nbytes.getD (2 * i + 1) 0)
                  match decodeUtf16 u16s with
                  | none => some st2
                  | some nm => some { st2 with filename := some nm }

/-- The attribute loop (`mft_indexer.rs` lines 98-159), fuelled: the
source loop advances by `attr_len ≥ 1` per iteration and stops before
position `1016`, so 1024 fuel always suffices. -/
def attrWalk (buf : List Nat) : Nat → Nat → AttrState → Option AttrState
  | 0, _, _ => none
  | fuel + 1, pos, st =>
    if 1016 ≤ pos then some st
    else
      match readU32 buf pos with
      | none => none
      | some attr_type =>
        if attr_type = 0xFFFFFFFF then some st
        else
          match readU32 buf (pos + 4) with
          | none => none
          | some attr_len =>
            if attr_len = 0 then some st
            else
              let step : Option AttrState :=
                if attr_type = 0x30 ∧ st.filename = none then
                  fileNameAttr buf pos st
                else some st
              match step with
              | none => none
              | some st2 => attrWalk buf fuel (pos + attr_len) st2

/-- The header reads and attribute walk of one MFT record
(`mft_indexer.rs` lines 85-159): flags at `0x16` (bit 0 = in-use) and the
first attribute offset at `0x14`. -/
def parseMftRecord (buf : List Nat) : Option (Bool × AttrState) :=
  match readU16 buf 0x16 with
  | none => none
  | some flags =>
    match readU16 buf 0x14 with
    | none => none
    | some first_attr_offset =>
      (attrWalk buf 1024 first_attr_offset
        { filename := none, file_size := none, is_dir := false }).map
        (fun st => (flags.testBit 0, st))

/-- The extension computation of the MFT emission
(`mft_indexer.rs` lines 167-171):
`name.rfind('.').map(|idx| format!(".\x7b\x7d", &name[idx..]))`.
`&name[idx..]` starts at the dot itself, and the format string prepends a
further dot. -/
def lastIndexOf (c : Char) : List Char → Option Nat
  | [] => none
  | x :: xs =>
    match lastIndexOf c xs with
    | some i => some (i + 1)
    | none => if x = c then some 0 else none

/-- Embeds `extension` as computed at `mft_indexer.rs` lines 167-171. -/
def mftExtension (is_dir : Bool) (name : List Char) : Option (List Char) :=
  if is_dir then none
  else (lastIndexOf '.' name).map (fun idx => '.' :: name.drop idx)

/-- The emission step (`mft_indexer.rs` lines 161-196): a record is pushed
exactly when a filename was decoded, the record is in use, and the name is
non-empty. `mt`/`li` are the wall-clock timestamps taken at lines 164-165. -/
def mftEmit (drive mt li : List Char) (in_use : Bool) (st : AttrState) :
    Option FileRecord :=
  match st.filename with
  | none => none
  | some name =>
    if in_use ∧ name ≠ [] then
      some { path := drive ++ ':' :: '\\' :: name, name := name,
             extension := mftExtension st.is_dir name,
             file_size := st.file_size, is_dir := st.is_dir,
             modified_time := mt, last_indexed := li }
    else none

/-- One iteration of the record loop of `index_drive`
(`mft_indexer.rs` lines 77-196) on an already-read 1024-byte buffer:
`some none` means the record is skipped, `some (some r)` that `r` is
pushed into the batch, `none` that the iteration panics or aborts
`index_drive` with an error. -/
def mftProcessRecord (bps : Nat) (drive mt li : List Char)
    (buffer : List Nat) : Option (Option FileRecord) :=
  if buffer.take 4 ≠ [70, 73, 76, 69] then some none
  else
    match apply_fixups buffer bps with
    | none => none
    | some (false, _) => some none
    | some (true, buf2) =>
      match parseMftRecord buf2 with
      | none => none
      | some (in_use, st) => some (mftEmit drive mt li in_use st)

/-! ## Sector reader (`mft_indexer.rs` lines 296-371)

The underlying reader is an in-memory byte buffer (`backing`) with
`Cursor` semantics: a read at position `p` of up to `sector_size` bytes
returns `backing[p .. min(p + sector_size, len)]`. `cache` holds the
contents of the sector-aligned staging window (`buffer_valid` bytes were
filled by the last refill; only those are ever served). A read call that
never returns (the refill/retry cycle at end of file inside a partially
filled sector) exhausts its fuel and is `none`. -/

structure SectorReader where
  backing : List Nat
  sectorSize : Nat
  cache : List Nat
  bufferOffset : Nat
  bufferValid : Nat
  pos : Nat
deriving DecidableEq, Repr

/-- Embeds `SectorReader::new` (`mft_indexer.rs` lines 306-316). -/
def SectorReader.new (backing : List Nat) (sectorSize : Nat) : SectorReader :=
  { backing := backing, sectorSize := sectorSize, cache := [],
    bufferOffset := 0, bufferValid := 0, pos := 0 }

/-- Embeds `SectorReader::seek` with `SeekFrom::Start` (`mft_indexer.rs` lines
361-370): only the logical position changes. -/
def srSeekStart (s : SectorReader) (v : Nat) : SectorReader :=
  { s with pos := v }

/-- Embeds `SectorReader::read` (`mft_indexer.rs` lines 319-358), fuelled to
account for the tail-recursive retry. -/
def srRead : Nat → SectorReader → Nat → Option (List Nat × SectorReader)
  | 0, _, _ => none
  | fuel + 1, s, n =>
    if n = 0 then some ([], s)
    else
      let css := s.pos / s.sectorSize * s.sectorSize
      let off := s.pos % s.sectorSize
      let refill := s.bufferValid = 0 ∨ s.bufferOffset ≠ css
      let s1 :=
        if refill then
          let data := (s.backing.drop css).take s.sectorSize
          { s with cache := data, bufferValid := data.length,
                   bufferOffset := css }
        else s
      if refill ∧ s1.bufferValid = 0 then some ([], s1)
      else
        let available := s1.bufferValid - off
        let toCopy := min n available
        if toCopy = 0 ∧ available = 0 then
          srRead fuel { s1 with bufferValid := 0 } n
        else
          some ((s1.cache.drop off).take toCopy, { s1 with pos := s1.pos + toCopy })

/-- A sequence of `read` calls with the given request sizes; the returned
byte lists are concatenated. -/
def srReadSeq : Nat → SectorReader → List Nat → Option (List Nat × SectorReader)
  | _, s, [] => some ([], s)
  | fuel, s, n :: ns =>
    match srRead fuel s n with
    | none => none
    | some (bs, s1) =>
      match srReadSeq fuel s1 ns with
      | none => none
      | some (rest, s2) => some (bs ++ rest, s2)

/-- Invariant of a `SectorReader` over an immutable backing buffer: the
sector size is positive, and whenever the staging window is valid it holds
exactly the bytes of the backing buffer at the cached sector. -/
def srWF (s : SectorReader) : Prop :=
  0 < s.sectorSize ∧
  (s.bufferValid ≠ 0 →
    s.cache.length = s.bufferValid ∧
    s.cache = (s.backing.drop s.bufferOffset).take s.sectorSize)

/-! ## Concrete fixtures used by counterexamples and witnesses -/

/-- Patch a byte buffer at the listed (index, value) pairs. -/
def patchBytes (base : List Nat) (ps : List (Nat × Nat)) : List Nat :=
  ps.foldl (fun a p => a.set p.1 p.2) base

/-- A well-formed 1024-byte MFT record fixture: magic `FILE`,
`usa_offset = 48`, `usa_count = 1` (empty fixup sweep), in-use flags,
first attribute at 56: one resident FILENAME attribute (length 120,
content offset 24) whose file-attribute flags carry the directory bit
`0x10000000`, name length 1, name `D`; terminated by `0xFFFFFFFF`. -/
def mftDirFixture : List Nat :=
  patchBytes (List.replicate 1024 0)
    [(0, 70), (1, 73), (2, 76), (3, 69), (4, 48), (6, 1), (20, 56),
     (22, 1), (56, 48), (60, 120), (64, 0), (76, 24), (131, 16),
     (144, 1), (146, 68), (176, 255), (177, 255), (178, 255), (179, 255)]

/-- A 1024-byte buffer whose `usa_count` field is 0 (all zero bytes). -/
def zeroUsaFixture : List Nat :=
  List.replicate 1024 0

/-- A 1024-byte buffer with `usa_offset = 48` and `usa_count = 2`, used to
exercise the `(i + 1) * bytes_per_sector - 2` underflow at
`bytes_per_sector = 1`. -/
def smallSectorFixture : List Nat :=
  patchBytes (List.replicate 1024 0) [(4, 48), (6, 2)]

/-- A 1024-byte record with `usa_offset = 48`, `usa_count = 3` and USN 7:
sector 1's end word (at 510) matches the USN and is restored to 9, but
sector 2's end word (5 at 1022) mismatches, so the sweep returns `false`
after having already mutated the buffer. -/
def mismatchFixture : List Nat :=
  patchBytes (List.replicate 1024 0)
    [(4, 48), (6, 3), (48, 7), (50, 9), (510, 7), (1022, 5)]

/-- A stored row whose name is the single upper-case letter `A`. -/
def upperARecord : FileRecord :=
  { path := "A".data, name := "A".data, extension := none,
    file_size := none, is_dir := false, modified_time := "t".data,
    last_indexed := "t".data }

/-- A decoded attribute state for a directory with a known size, used to
instantiate the emission theorems. -/
def dirAttrFixture : AttrState :=
  { filename := some ['D'], file_size := some 5, is_dir := true }

/-- The record `mftEmit` produces from `dirAttrFixture`. -/
def mftDirEmitted : FileRecord :=
  { path := "C".data ++ ':' :: '\\' :: ['D'], name := ['D'],
    extension := none, file_size := some 5, is_dir := true,
    modified_time := "t".data, last_indexed := "t".data }

/-! # Theorems -/

set_option maxRecDepth 8000

/-- The per-row transaction loop computes the left fold of
insert-or-replace when no row fails. -/
theorem txRun_eq_foldl (fail : FileRecord → Bool) :
    ∀ (files db s : List FileRecord),
      txRun fail db files = some s → s = files.foldl upsertRow db := by
  intro files
  induction files with
  | nil =>
    intro db s h
    simp only [txRun, Option.some.injEq] at h
    simp [h.symm]
  | cons f fs ih =>
    intro db s h
    by_cases hf : fail f
    · simp [txRun, hf] at h
    · simp only [txRun, hf, Bool.false_eq_true, if_false] at h
      simpa using ih (upsertRow db f) s h

/-- The per-row transaction loop aborts exactly when some row fails. -/
theorem txRun_none_iff (fail : FileRecord → Bool) :
    ∀ (files db : List FileRecord),
      txRun fail db files = none ↔ ∃ f ∈ files, fail f = true := by
  intro files
  induction files with
  | nil => intro db; simp [txRun]
  | cons f fs ih =>
    intro db
    by_cases hf : fail f
    · simp [txRun, hf]
    · simp [txRun, hf, ih (upsertRow db f)]

/-- Claim C4: `upsert_batch` is all-or-nothing: it either succeeds and the
store equals the full per-row insert-or-replace fold of the batch, or it
fails with the transaction rolled back and the pre-batch row set
unchanged; it errors exactly when some row fails, and never persists a
proper non-empty subset of the batch. -/
theorem upsert_batch_all_or_nothing (fail : FileRecord → Bool)
    (db files : List FileRecord) :
    ((upsert_batch fail db files = .ok (files.foldl upsertRow db) ∧
        upsertBatchState fail db files = files.foldl upsertRow db) ∨
      (upsert_batch fail db files = .error () ∧
        upsertBatchState fail db files = db)) ∧
    (upsert_batch fail db files = .error () ↔ ∃ f ∈ files, fail f = true) := by
  by_cases he : files.isEmpty
  · have hfe : files = [] := List.isEmpty_iff.mp he
    subst hfe
    simp [upsert_batch, upsertBatchState]
  · cases htx : txRun fail db files with
    | none =>
      have hex := (txRun_none_iff fail files db).mp htx
      constructor
      · right
        constructor
        · simp [upsert_batch, he, htx]
        · simp [upsertBatchState, upsert_batch, he, htx]
      · simp [upsert_batch, he, htx, hex]
    | some s =>
      have hs := txRun_eq_foldl fail files db s htx
      subst hs
      constructor
      · left
        constructor
        · simp [upsert_batch, he, htx]
        · simp [upsertBatchState, upsert_batch, he, htx]
      · constructor
        · intro h
          simp [upsert_batch, he, htx] at h
        · intro hex
          exact absurd htx (by simp [(txRun_none_iff fail files db).mpr hex])

/-- The item-by-item fallback counts exactly the records the individual
upsert oracle lets through. -/
theorem flush_fallback_count (failI : FileRecord → Bool) :
    ∀ (batch : List FileRecord) (db : List FileRecord) (n : Nat),
      (batch.foldl (fallbackStep failI) ((db, n) : List FileRecord × Nat)).2 =
        n + batch.countP (fun r => !failI r) := by
  intro batch
  induction batch with
  | nil => intro db n; simp
  | cons r rs ih =>
    intro db n
    rw [List.foldl_cons]
    by_cases hf : failI r
    · have hstep : fallbackStep failI (db, n) r = (db, n) := by
        simp [fallbackStep, upsert_file, hf]
      rw [hstep, ih, List.countP_cons]
      simp [hf]
    · have hstep : fallbackStep failI (db, n) r = (upsertRow db r, n + 1) := by
        simp [fallbackStep, upsert_file, hf]
      rw [hstep, ih, List.countP_cons]
      simp [hf]
      omega

/-- Claim C7: A flush leaves the batch buffer empty and returns the batch
length when the bulk upsert succeeds, and otherwise the number of records
the item-by-item fallback managed to upsert; both arms of the source
return `Ok`, so a batch failure never surfaces as a flush error. -/
theorem flush_batch_spec (failB failI : FileRecord → Bool)
    (db batch : List FileRecord) :
    (flush_batch failB failI db batch).2.1 = [] ∧
    (flush_batch failB failI db batch).2.2 =
      (match upsert_batch failB db batch with
       | .ok _ => batch.length
       | .error _ => batch.countP (fun r => !failI r)) := by
  by_cases he : batch.isEmpty
  · have hbe : batch = [] := List.isEmpty_iff.mp he
    subst hbe
    simp [flush_batch, upsert_batch]
  · cases hub : upsert_batch failB db batch with
    | ok db2 => simp [flush_batch, he, hub]
    | error e =>
      refine ⟨by simp [flush_batch, he, hub], ?_⟩
      simp only [flush_batch, he, Bool.false_eq_true, if_false, hub]
      simpa using flush_fallback_count failI batch db 0

/-- Claim C8: The `search_files` command with an empty query returns `Ok`
with an empty result vector and `total = 0`, and performs no store
operation (the touched flag is `false`). -/
theorem search_files_cmd_empty_query (filters : SearchFilters)
    (page limit : Nat) (db : List FileRecord) :
    search_files_cmd [] filters page limit db =
      (.ok { query := [], results := [], total := 0, page := page,
             limit := limit }, false) := rfl

/-- Claim C9: `reindex_path` replaces an empty exclusion list with the seven
default patterns, so no call through this command runs with an empty
exclusion list. -/
theorem reindex_path_default_excludes :
    reindexPatterns [] = get_default_exclude_patterns ∧
    get_default_exclude_patterns =
      [".git".data, "node_modules".data, "target".data, ".DS_Store".data,
       "__pycache__".data, ".venv".data, "venv".data] ∧
    ∀ ps : List (List Char), reindexPatterns ps ≠ [] := by
  refine ⟨rfl, rfl, ?_⟩
  intro ps
  cases ps with
  | nil => simp [reindexPatterns, get_default_exclude_patterns]
  | cons p ps => simp [reindexPatterns]

/-- Witness for C9 at a concrete non-empty exclusion list. -/
theorem reindex_path_default_excludes_witness :
    reindexPatterns ["a".data] ≠ [] :=
  reindex_path_default_excludes.2.2 ["a".data]

/-- Claim C10: `get_last_indexed_time` always returns `Ok`, and both an
underlying query failure and an empty table map to `Ok none`, so the two
situations are indistinguishable to the caller. -/
theorem get_last_indexed_time_total (qf : Bool) (db : List FileRecord) :
    (∃ v, get_last_indexed_time qf db = .ok v) ∧
    get_last_indexed_time true db = .ok none ∧
    get_last_indexed_time qf ([] : List FileRecord) = .ok none := by
  refine ⟨⟨_, rfl⟩, rfl, ?_⟩
  cases qf <;> rfl

theorem lastIndexOf_eq_none_iff (c : Char) :
    ∀ l : List Char, lastIndexOf c l = none ↔ c ∉ l := by
  intro l
  induction l with
  | nil => simp [lastIndexOf]
  | cons x xs ih =>
    cases h : lastIndexOf c xs with
    | some i =>
      simp only [lastIndexOf, h]
      have : c ∈ xs := by
        by_contra hc
        simp [ih.mpr hc] at h
      simp [this]
    | none =>
      simp only [lastIndexOf, h]
      by_cases hx : x = c
      · simp [hx]
      · simp [hx, ih.mp h, Ne.symm hx]

theorem lastIndexOf_last_dot (c : Char) (post : List Char) (hpost : c ∉ post) :
    ∀ pre : List Char, lastIndexOf c (pre ++ c :: post) = some pre.length := by
  intro pre
  induction pre with
  | nil =>
    simp [lastIndexOf, (lastIndexOf_eq_none_iff c post).mpr hpost]
  | cons x xs ih =>
    simp [lastIndexOf, ih]

/-- Claim C3, counterexample: The MFT extension of `archive.tar.gz` is
`..gz`, not the `.gz` the claim states: `&name[idx..]` starts at the last
dot and the format string prepends a second dot. -/
theorem mftExtension_double_dot :
    mftExtension false "archive.tar.gz".data = some "..gz".data ∧
    "..gz".data ≠ ".gz".data := by
  exact ⟨rfl, by decide⟩

/-- Claim C3, amended: For a non-directory name containing a dot, the
emitted extension is a dot prepended to the suffix of the name from the
last dot inclusive (so `archive.tar.gz` yields `..gz`, with a doubled
dot); for names without a dot it is `None`, and for directories it is
`None`. -/
theorem mftExtension_spec (name : List Char) :
    mftExtension true name = none ∧
    ('.' ∉ name → mftExtension false name = none) ∧
    (∀ pre post, name = pre ++ '.' :: post → '.' ∉ post →
      mftExtension false name = some ('.' :: '.' :: post)) := by
  refine ⟨rfl, ?_, ?_⟩
  · intro h
    simp [mftExtension, (lastIndexOf_eq_none_iff _ _).mpr h]
  · intro pre post hname hpost
    subst hname
    simp [mftExtension, lastIndexOf_last_dot _ _ hpost, List.drop_left]

/-- Witness for the amended C3 theorem at `a.b`. -/
theorem mftExtension_spec_witness :
    mftExtension false "a.b".data = some "..b".data :=
  (mftExtension_spec "a.b".data).2.2 "a".data "b".data (by decide) (by decide)

/-- Claim C1, counterexample: A fixed MFT record whose FILENAME attribute
carries the directory bit is emitted with `is_dir = true`,
`extension = None` but a non-`None` `file_size` (the scanner copies the
size field regardless of `is_dir`), refuting the claim that every emitted
directory record has `file_size = None`. -/
theorem mft_directory_nonnull_size :
    (mftProcessRecord 512 "C".data "t".data "t".data mftDirFixture).map
      (Option.map (fun r => (r.is_dir, r.extension, r.file_size.isSome))) =
      some (some (true, none, true)) := by
  rfl

/-- Claim C1, amended: Every directory record the walker emits has
`extension = None` and `file_size = None`; every record the MFT scanner
emits with `is_dir = true` has `extension = None`, but its `file_size` is
whatever the FILENAME attribute's size field decoded to, which need not be
`None`. -/
theorem emitted_record_dir_fields (path name mt li drive : List Char)
    (in_use : Bool) (st : AttrState) (r : FileRecord)
    (h : mftEmit drive mt li in_use st = some r) :
    ((walkerDirRecord path name mt li).extension = none ∧
      (walkerDirRecord path name mt li).file_size = none ∧
      (walkerDirRecord path name mt li).is_dir = true) ∧
    (r.is_dir = true → r.extension = none) := by
  refine ⟨⟨rfl, rfl, rfl⟩, ?_⟩
  intro hdir
  unfold mftEmit at h
  cases hfn : st.filename with
  | none => simp [hfn] at h
  | some nm =>
    simp only [hfn] at h
    by_cases hc : in_use ∧ nm ≠ []
    · obtain ⟨h1, h2⟩ := hc
      simp [h1, h2] at h
      subst h
      simp only at hdir
      simp [mftExtension, hdir]
    · simp [hc] at h

/-- Witness for the amended C1 theorem at the fixed directory attribute
state. -/
theorem emitted_record_dir_fields_witness :
    mftEmit "C".data "t".data "t".data true dirAttrFixture =
      some mftDirEmitted ∧
    mftDirEmitted.extension = none :=
  ⟨rfl,
    (emitted_record_dir_fields "p".data "n".data "t".data "t".data "C".data
      true dirAttrFixture mftDirEmitted rfl).2 rfl⟩

/-- Totality of the fixup sweep: once the USA slice really holds
`2 * (i + n) + 2` bytes and the sector size is at least 2, every iteration
either returns a verdict or recurses, and no index or subtraction
panics. -/
theorem fixupLoop_total (fd : List Nat) (usn bps : Nat) (hb : 2 ≤ bps) :
    ∀ (n i : Nat) (buf : List Nat), fd.length = 2 * (i + n) + 2 →
      (fixupLoop fd usn bps i n buf).isSome := by
  intro n
  induction n with
  | zero => intro i buf _; simp [fixupLoop]
  | succ n ih =>
    intro i buf hlen
    rcases hg1 : fd.get? ((i + 1) * 2) with _ | lo
    · exact absurd (List.get?_eq_none.mp hg1) (by omega)
    rcases hg2 : fd.get? ((i + 1) * 2 + 1) with _ | hi
    · exact absurd (List.get?_eq_none.mp hg2) (by omega)
    have hnotlt : ¬ (i + 1) * bps < 2 := by
      have hble : bps ≤ (i + 1) * bps := Nat.le_mul_of_pos_left bps (Nat.succ_pos i)
      omega
    simp only [fixupLoop, hg1, hg2]
    rw [if_neg hnotlt]
    by_cases hp : sectorEndPos bps i + 2 > buf.length
    · simp [hp]
    · rcases hb1 : buf.get? (sectorEndPos bps i) with _ | dlo
      · exact absurd (List.get?_eq_none.mp hb1) (by omega)
      rcases hb2 : buf.get? (sectorEndPos bps i + 1) with _ | dhi
      · exact absurd (List.get?_eq_none.mp hb2) (by omega)
      rw [if_neg hp]
      simp only [hb1, hb2]
      by_cases hu : dlo + 256 * dhi ≠ usn
      · simp [hu]
      · rw [if_neg hu]
        exact ih (i + 1) _ (by omega)

/-- Claim C5, counterexample: the claim fails in three ways, all with
positive `bytes_per_sector`. On a 1024-byte record whose `usa_count`
field is zero, `apply_fixups` indexes the empty USA slice and panics;
with `bytes_per_sector = 1` the sector-end position computation
underflows and panics; and on a USN mismatch at the second sector it
returns `false` with the first sector's end word already restored, so the
buffer's prior contents are not preserved. -/
theorem apply_fixups_claim_failures :
    (apply_fixups zeroUsaFixture 512 = none ∧ usaCount zeroUsaFixture = 0 ∧
      zeroUsaFixture.length = 1024 ∧ (0 : Nat) < 512) ∧
    (apply_fixups smallSectorFixture 1 = none ∧
      usaCount smallSectorFixture = 2 ∧
      smallSectorFixture.length = 1024 ∧ (0 : Nat) < 1) ∧
    (apply_fixups mismatchFixture 512 =
      some (false, patchBytes mismatchFixture [(510, 9), (511, 0)]) ∧
      patchBytes mismatchFixture [(510, 9), (511, 0)] ≠ mismatchFixture ∧
      mismatchFixture.length = 1024 ∧ (0 : Nat) < 512) := by
  exact ⟨⟨rfl, rfl, by rfl, by decide⟩, ⟨rfl, by rfl, by rfl, by decide⟩,
    ⟨by rfl, by decide, by rfl, by decide⟩⟩

theorem sectorEndPos_lt (bps : Nat) (hb : 2 ≤ bps) {j i : Nat}
    (hji : j < i) : sectorEndPos bps j + 1 < sectorEndPos bps i := by
  have hAB : (j + 1) * bps + bps ≤ (i + 1) * bps := by
    have h2 : j + 2 ≤ i + 1 := by omega
    calc (j + 1) * bps + bps = (j + 2) * bps := by ring
      _ ≤ (i + 1) * bps := Nat.mul_le_mul_right bps h2
  have hA2 : 2 ≤ (j + 1) * bps :=
    le_trans hb (Nat.le_mul_of_pos_left bps (Nat.succ_pos j))
  unfold sectorEndPos
  generalize hA : (j + 1) * bps = A at hAB hA2 ⊢
  generalize hB : (i + 1) * bps = B at hAB ⊢
  omega

theorem getD_set_ne (l : List Nat) {m k : Nat} (a : Nat) (h : m ≠ k) :
    (l.set m a).getD k 0 = l.getD k 0 := by
  simp [List.getD_eq_getElem?_getD, List.getElem?_set_ne h]

/-- A sector-end check is unaffected by the restoration writes of an
earlier sector. -/
theorem sectorOk_set_below (buf : List Nat) (usn bps : Nat) (hb : 2 ≤ bps)
    {j m : Nat} (hjm : j < m) (a b : Nat) :
    sectorOk ((buf.set (sectorEndPos bps j) a).set (sectorEndPos bps j + 1) b)
      usn bps m ↔ sectorOk buf usn bps m := by
  have hlt := sectorEndPos_lt bps hb hjm
  have h1 : sectorEndPos bps j + 1 ≠ sectorEndPos bps m := by omega
  have h2 : sectorEndPos bps j ≠ sectorEndPos bps m := by omega
  have h3 : sectorEndPos bps j + 1 ≠ sectorEndPos bps m + 1 := by omega
  have h4 : sectorEndPos bps j ≠ sectorEndPos bps m + 1 := by omega
  unfold sectorOk
  rw [List.length_set, List.length_set, getD_set_ne _ _ h1,
    getD_set_ne _ _ h2, getD_set_ne _ _ h3, getD_set_ne _ _ h4]

/-- Exact behaviour of the fixup sweep over sectors `i, …, i + n - 1`:
if every sector-end check passes it returns `true` with all those words
restored, and at the first failing check it returns `false` with exactly
the earlier sectors restored. The checks are stated against the buffer
the sweep started from, which is sound because each restoration writes
below every later check position. -/
theorem fixupLoop_spec (fd : List Nat) (usn bps : Nat) (hb : 2 ≤ bps) :
    ∀ (n i : Nat) (buf : List Nat), 2 * (i + n) + 2 ≤ fd.length →
      ((∀ j, j < n → sectorOk buf usn bps (i + j)) →
        fixupLoop fd usn bps i n buf =
          some (true, restoreSectors fd bps buf i n)) ∧
      (∀ k, k < n → (∀ j, j < k → sectorOk buf usn bps (i + j)) →
        ¬ sectorOk buf usn bps (i + k) →
        fixupLoop fd usn bps i n buf =
          some (false, restoreSectors fd bps buf i k)) := by
  intro n
  induction n with
  | zero =>
    intro i buf _
    exact ⟨fun _ => rfl, fun k hk => absurd hk (by omega)⟩
  | succ n ih =>
    intro i buf hlen
    rcases hg1 : fd.get? ((i + 1) * 2) with _ | lo
    · exact absurd (List.get?_eq_none.mp hg1) (by omega)
    rcases hg2 : fd.get? ((i + 1) * 2 + 1) with _ | hi
    · exact absurd (List.get?_eq_none.mp hg2) (by omega)
    have hglo : fd[(i + 1) * 2]?.getD 0 = lo := by
      rw [← List.get?_eq_getElem?, hg1]
      rfl
    have hghi : fd[(i + 1) * 2 + 1]?.getD 0 = hi := by
      rw [← List.get?_eq_getElem?, hg2]
      rfl
    have hnotlt : ¬ (i + 1) * bps < 2 := by
      have hble : bps ≤ (i + 1) * bps :=
        Nat.le_mul_of_pos_left bps (Nat.succ_pos i)
      omega
    by_cases hup : sectorEndPos bps i + 2 > buf.length
    · have hfail : ¬ sectorOk buf usn bps i := fun hok => absurd hok.1 (by omega)
      have hres : fixupLoop fd usn bps i (n + 1) buf = some (false, buf) := by
        simp only [fixupLoop, hg1, hg2]
        rw [if_neg hnotlt, if_pos hup]
      constructor
      · intro hok
        exact absurd (by simpa using hok 0 (by omega)) hfail
      · intro k hk hgood hbad
        have hk0 : k = 0 := by
          by_contra hne
          exact hfail (by simpa using hgood 0 (by omega))
        subst hk0
        simpa [restoreSectors] using hres
    · rcases hb1 : buf.get? (sectorEndPos bps i) with _ | dlo
      · exact absurd (List.get?_eq_none.mp hb1) (by omega)
      rcases hb2 : buf.get? (sectorEndPos bps i + 1) with _ | dhi
      · exact absurd (List.get?_eq_none.mp hb2) (by omega)
      have hdlo : buf.getD (sectorEndPos bps i) 0 = dlo := by
        rw [List.getD_eq_getElem?_getD, ← List.get?_eq_getElem?, hb1]
        rfl
      have hdhi : buf.getD (sectorEndPos bps i + 1) 0 = dhi := by
        rw [List.getD_eq_getElem?_getD, ← List.get?_eq_getElem?, hb2]
        rfl
      by_cases hmm : dlo + 256 * dhi ≠ usn
      · have hfail : ¬ sectorOk buf usn bps i := by
          intro hok
          exact hmm (by rw [← hdlo, ← hdhi]; exact hok.2)
        have hres : fixupLoop fd usn bps i (n + 1) buf = some (false, buf) := by
          simp only [fixupLoop, hg1, hg2]
          rw [if_neg hnotlt, if_neg hup]
          simp only [hb1, hb2]
          rw [if_pos hmm]
        constructor
        · intro hok
          exact absurd (by simpa using hok 0 (by omega)) hfail
        · intro k hk hgood hbad
          have hk0 : k = 0 := by
            by_contra hne
            exact hfail (by simpa using hgood 0 (by omega))
          subst hk0
          simpa [restoreSectors] using hres
      · push_neg at hmm
        have hoki : sectorOk buf usn bps i := ⟨by omega, by rw [hdlo, hdhi]; exact hmm⟩
        have hstep : fixupLoop fd usn bps i (n + 1) buf =
            fixupLoop fd usn bps (i + 1) n
              ((buf.set (sectorEndPos bps i) lo).set
                (sectorEndPos bps i + 1) hi) := by
          simp only [fixupLoop, hg1, hg2]
          rw [if_neg hnotlt, if_neg hup]
          simp only [hb1, hb2]
          rw [if_neg (by omega : ¬ dlo + 256 * dhi ≠ usn)]
        have htrans : ∀ m, i < m →
            (sectorOk ((buf.set (sectorEndPos bps i) lo).set
              (sectorEndPos bps i + 1) hi) usn bps m ↔
             sectorOk buf usn bps m) :=
          fun m him => sectorOk_set_below buf usn bps hb him lo hi
        obtain ⟨IH1, IH2⟩ := ih (i + 1)
          ((buf.set (sectorEndPos bps i) lo).set (sectorEndPos bps i + 1) hi)
          (by omega)
        constructor
        · intro hok
          rw [hstep, show restoreSectors fd bps buf i (n + 1) =
              restoreSectors fd bps
                ((buf.set (sectorEndPos bps i) lo).set
                  (sectorEndPos bps i + 1) hi) (i + 1) n from by
            simp [restoreSectors, hglo, hghi]]
          apply IH1
          intro j hj
          rw [htrans (i + 1 + j) (by omega),
            show i + 1 + j = i + (j + 1) from by omega]
          exact hok (j + 1) (by omega)
        · intro k hk hgood hbad
          cases k with
          | zero =>
            exact absurd hoki (by simpa using hbad)
          | succ k2 =>
            rw [hstep, show restoreSectors fd bps buf i (k2 + 1) =
                restoreSectors fd bps
                  ((buf.set (sectorEndPos bps i) lo).set
                    (sectorEndPos bps i + 1) hi) (i + 1) k2 from by
              simp [restoreSectors, hglo, hghi]]
            apply IH2 k2 (by omega)
            · intro j hj
              rw [htrans (i + 1 + j) (by omega),
                show i + 1 + j = i + (j + 1) from by omega]
              exact hgood (j + 1) (by omega)
            · rw [htrans (i + 1 + k2) (by omega),
                show i + 1 + k2 = i + (k2 + 1) from by omega]
              exact hbad

/-- Claim C5, amended: for every record buffer of at least 8 bytes whose
`usa_count` field is at least 1 and every `bytes_per_sector` of at
least 2, `apply_fixups` never panics; when the update-sequence array
extends past the buffer it returns `false` with the buffer untouched and
the record is skipped; when every sector-end word matches the USN it
returns `true` with each sector-end word restored from the USA; and at
the first failing sector-end check (position past the buffer or USN
mismatch) it returns `false` with the earlier sectors' words already
restored — the buffer's prior contents are not preserved in that case.
With `usa_count = 0` the function panics indexing the empty USA, and with
`bytes_per_sector = 1` the sector-end position computation panics. -/
theorem apply_fixups_no_panic (buffer : List Nat) (bps : Nat)
    (hc : 1 ≤ usaCount buffer) (hb : 2 ≤ bps) (hL : 8 ≤ buffer.length) :
    (apply_fixups buffer bps).isSome ∧
    (buffer.length < usaOffset buffer + usaCount buffer * 2 →
      apply_fixups buffer bps = some (false, buffer)) ∧
    (usaOffset buffer + usaCount buffer * 2 ≤ buffer.length →
      ((∀ j, j < usaCount buffer - 1 →
          sectorOk buffer (recordUsn buffer) bps j) →
        apply_fixups buffer bps = some (true,
          restoreSectors (usaData buffer) bps buffer 0
            (usaCount buffer - 1))) ∧
      (∀ k, k < usaCount buffer - 1 →
        (∀ j, j < k → sectorOk buffer (recordUsn buffer) bps j) →
        ¬ sectorOk buffer (recordUsn buffer) bps k →
        apply_fixups buffer bps = some (false,
          restoreSectors (usaData buffer) bps buffer 0 k))) := by
  have h8 : ¬ buffer.length < 8 := by omega
  by_cases hend : usaOffset buffer + usaCount buffer * 2 > buffer.length
  · refine ⟨?_, ?_, ?_⟩
    · simp [apply_fixups, h8, hend]
    · intro _
      simp [apply_fixups, h8, hend]
    · intro hle
      exact absurd hle (by omega)
  · have hfdlen : (usaData buffer).length = usaCount buffer * 2 := by
      simp only [usaData, List.length_take, List.length_drop]
      omega
    rcases hg1 : (usaData buffer).get? 0 with _ | u0
    · exact absurd (List.get?_eq_none.mp hg1) (by omega)
    rcases hg2 : (usaData buffer).get? 1 with _ | u1
    · exact absurd (List.get?_eq_none.mp hg2) (by omega)
    have husn : recordUsn buffer = u0 + 256 * u1 := by
      unfold recordUsn
      rw [List.getD_eq_getElem?_getD, List.getD_eq_getElem?_getD,
        ← List.get?_eq_getElem?, ← List.get?_eq_getElem?, hg1, hg2]
      rfl
    have happ : apply_fixups buffer bps =
        fixupLoop (usaData buffer) (u0 + 256 * u1) bps 0
          (usaCount buffer - 1) buffer := by
      simp only [apply_fixups]
      rw [if_neg h8, if_neg hend]
      simp only [hg1, hg2]
    obtain ⟨S1, S2⟩ := fixupLoop_spec (usaData buffer) (u0 + 256 * u1) bps hb
      (usaCount buffer - 1) 0 buffer (by omega)
    refine ⟨?_, ?_, ?_⟩
    · rw [happ]
      exact fixupLoop_total _ _ _ hb (usaCount buffer - 1) 0 buffer (by omega)
    · intro hlt
      exact absurd hlt (by omega)
    · intro _
      constructor
      · intro hok
        rw [happ]
        apply S1
        intro j hj
        have hj2 := hok j hj
        rw [husn] at hj2
        simpa using hj2
      · intro k hk hgood hbad
        rw [happ]
        apply S2 k hk
        · intro j hj
          have hj2 := hgood j hj
          rw [husn] at hj2
          simpa using hj2
        · rw [husn] at hbad
          simpa using hbad

/-- Witness for the amended C5 theorem: `usa_count = 2`,
`bytes_per_sector = 2`, all sector-end checks pass, so the sweep returns
`true` with the sector-end words restored. -/
theorem apply_fixups_no_panic_witness :
    apply_fixups smallSectorFixture 2 =
      some (true, restoreSectors (usaData smallSectorFixture) 2
        smallSectorFixture 0 (usaCount smallSectorFixture - 1)) :=
  ((apply_fixups_no_panic smallSectorFixture 2 (by decide) (by decide)
      (by decide)).2.2 (by decide)).1 (by decide)

/-- A leading `%` wildcard matches an arbitrary prefix of the text. -/
theorem likeMatch_percent (ps : List Char) :
    ∀ ts : List Char, (likeMatch ('%' :: ps) ts = true ↔
      ∃ n, likeMatch ps (ts.drop n) = true) := by
  intro ts
  induction ts with
  | nil =>
    simp only [likeMatch, List.drop_nil]
    constructor
    · intro h
      exact ⟨0, by simpa using h⟩
    · rintro ⟨n, hn⟩
      simpa using hn
  | cons t ts2 ih =>
    simp only [likeMatch]
    constructor
    · intro h
      rcases Bool.or_eq_true_iff.mp (by simpa using h) with h1 | h2
      · exact ⟨0, by simpa using h1⟩
      · obtain ⟨n, hn⟩ := ih.mp h2
        exact ⟨n + 1, by simpa using hn⟩
    · rintro ⟨n, hn⟩
      cases n with
      | zero =>
        simp only [List.drop_zero] at hn
        simp [hn]
      | succ m =>
        have : likeMatch ('%' :: ps) ts2 = true :=
          ih.mpr ⟨m, by simpa using hn⟩
        simp [this]

/-- A wildcard-free pattern followed by `%` matches exactly the texts
with a prefix equal to the pattern up to ASCII lower-casing. -/
theorem likeMatch_plain_percent :
    ∀ ps : List Char, '%' ∉ ps → '_' ∉ ps →
      ∀ ts : List Char, (likeMatch (ps ++ ['%']) ts = true ↔
        ∃ k, (ts.take k).map asciiLower = ps.map asciiLower) := by
  intro ps
  induction ps with
  | nil =>
    intro _ _ ts
    constructor
    · intro _
      exact ⟨0, by simp⟩
    · intro _
      have h0 : ∃ n, likeMatch [] (ts.drop n) = true :=
        ⟨ts.length, by simp [likeMatch]⟩
      simpa [likeMatch_percent] using h0
  | cons p ps2 ih =>
    intro hp hu ts
    have hp1 : p ≠ '%' := by
      intro h; exact hp (by simp [h])
    have hu1 : p ≠ '_' := by
      intro h; exact hu (by simp [h])
    have hp2 : '%' ∉ ps2 := fun h => hp (List.mem_cons_of_mem _ h)
    have hu2 : '_' ∉ ps2 := fun h => hu (List.mem_cons_of_mem _ h)
    cases ts with
    | nil =>
      rw [List.cons_append]
      simp only [likeMatch, if_neg hp1]
      constructor
      · intro h; cases h
      · rintro ⟨k, hk⟩
        simp at hk
    | cons t ts2 =>
      rw [List.cons_append]
      simp only [likeMatch, if_neg hp1, if_neg hu1]
      constructor
      · intro h
        have h' : asciiLower p = asciiLower t ∧
            likeMatch (ps2 ++ ['%']) ts2 = true := by simpa using h
        obtain ⟨h1, h2⟩ := h'
        obtain ⟨k, hk⟩ := (ih hp2 hu2 ts2).mp h2
        refine ⟨k + 1, ?_⟩
        rw [List.take_succ_cons, List.map_cons, List.map_cons, hk, h1]
      · rintro ⟨k, hk⟩
        cases k with
        | zero => simp at hk
        | succ m =>
          rw [List.take_succ_cons, List.map_cons, List.map_cons] at hk
          injection hk with h1 h2
          have hrec := (ih hp2 hu2 ts2).mpr ⟨m, h2⟩
          simp [hrec, ← h1]

/-- For a wildcard-free query, the bound pattern `%q%` LIKE-matches a name
exactly when the ASCII-lower-cased query is an infix of the
ASCII-lower-cased name. -/
theorem likePattern_ascii_substr_iff (q : List Char) (hp : '%' ∉ q) (hu : '_' ∉ q)
    (ts : List Char) :
    likeMatch (likePattern q) ts = true ↔
      (q.map asciiLower) <:+: (ts.map asciiLower) := by
  unfold likePattern
  rw [show '%' :: q ++ ['%'] = '%' :: (q ++ ['%']) from rfl,
    likeMatch_percent]
  constructor
  · rintro ⟨n, hn⟩
    obtain ⟨k, hk⟩ := (likeMatch_plain_percent q hp hu (ts.drop n)).mp hn
    refine ⟨(ts.map asciiLower).take n,
      ((ts.map asciiLower).drop n).drop k, ?_⟩
    have hk2 : q.map asciiLower = ((ts.map asciiLower).drop n).take k := by
      rw [← hk, List.map_take, List.map_drop]
    rw [hk2, List.append_assoc, List.take_append_drop, List.take_append_drop]
  · rintro ⟨s, t, hst⟩
    refine ⟨s.length, ?_⟩
    rw [likeMatch_plain_percent q hp hu]
    refine ⟨q.length, ?_⟩
    have hdrop : (ts.map asciiLower).drop s.length =
        q.map asciiLower ++ t := by
      rw [← hst, List.append_assoc, List.drop_left]
    have htake : ((ts.map asciiLower).drop s.length).take q.length =
        q.map asciiLower := by
      rw [hdrop]
      have : q.length = (q.map asciiLower).length := (List.length_map _ _).symm
      rw [this, List.take_left]
    rw [← htake, List.map_take, List.map_drop]

/-- Claim C2, counterexample: SQLite's default `LIKE` is ASCII
case-insensitive: the stored name `A` is returned as a candidate for the
query `a`, although `a` does not occur in `A` as a case-sensitive
substring. -/
theorem search_case_insensitive_counterexample :
    searchCandidates [upperARecord] "a".data = [upperARecord] ∧
    ¬ ("a".data <:+: upperARecord.name) := by
  constructor
  · have hl : likeMatch (likePattern "a".data) upperARecord.name = true := by
      rw [likePattern_ascii_substr_iff "a".data (by decide) (by decide)]
      exact ⟨[], [], rfl⟩
    simp [searchCandidates, List.filter_cons, hl]
  · rintro ⟨s, t, hst⟩
    have hlen := congrArg List.length hst
    simp [upperARecord] at hlen
    have hs : s = [] := List.eq_nil_of_length_eq_zero (by omega)
    have ht : t = [] := List.eq_nil_of_length_eq_zero (by omega)
    subst hs; subst ht
    exact absurd hst (by decide)

/-- Claim C2, amended: For every stored record and wildcard-free query,
`search_files` keeps the record among its candidate rows (before the
extension/size filters and the limit) if and only if the query occurs in
the record's name as an ASCII-case-insensitive substring — SQLite's
default `LIKE` collation; a query differing from the stored name only in
ASCII letter case therefore does match. -/
theorem search_candidates_ascii_case_insensitive (db : List FileRecord)
    (q : List Char) (r : FileRecord) (hp : '%' ∉ q) (hu : '_' ∉ q) :
    r ∈ searchCandidates db q ↔
      r ∈ db ∧ (q.map asciiLower) <:+: (r.name.map asciiLower) := by
  unfold searchCandidates
  rw [List.mem_filter, likePattern_ascii_substr_iff q hp hu r.name]

/-- Witness for the amended C2 theorem: the query `a` against the stored
name `A`. -/
theorem search_candidates_ascii_case_insensitive_witness :
    upperARecord ∈ searchCandidates [upperARecord] "a".data ↔
      upperARecord ∈ [upperARecord] ∧
        ("a".data.map asciiLower) <:+: (upperARecord.name.map asciiLower) :=
  search_candidates_ascii_case_insensitive [upperARecord] "a".data
    upperARecord (by decide) (by decide)

/-- Bytes served from a valid staging window are exactly the backing
bytes at the logical position. -/
theorem cache_slice (s : SectorReader) (tc : Nat) (hwf : srWF s)
    (hv : s.bufferValid ≠ 0)
    (hbo : s.bufferOffset = s.pos / s.sectorSize * s.sectorSize)
    (htc : tc ≤ s.bufferValid - s.pos % s.sectorSize) :
    (s.cache.drop (s.pos % s.sectorSize)).take tc =
      (s.backing.drop s.pos).take tc ∧
    ((s.cache.drop (s.pos % s.sectorSize)).take tc).length = tc := by
  obtain ⟨hss, hcacheI⟩ := hwf
  obtain ⟨hlen, hdata⟩ := hcacheI hv
  have hpos : s.pos / s.sectorSize * s.sectorSize + s.pos % s.sectorSize
      = s.pos := by
    rw [Nat.mul_comm]
    exact Nat.div_add_mod s.pos s.sectorSize
  have hvss : s.bufferValid ≤ s.sectorSize := by
    rw [← hlen, hdata]
    simp [List.length_take]
  have htc2 : tc ≤ s.sectorSize - s.pos % s.sectorSize := by omega
  have hdropped :
      s.cache.drop (s.pos % s.sectorSize) =
        (s.backing.drop s.pos).take (s.sectorSize - s.pos % s.sectorSize) := by
    rw [hdata, hbo, List.drop_take, List.drop_drop, hpos]
  have hbv : s.bufferValid ≤ s.backing.length - s.bufferOffset := by
    rw [← hlen, hdata]
    simp [List.length_take]
  have hB : tc ≤ s.backing.length - s.pos :=
    calc tc ≤ s.bufferValid - s.pos % s.sectorSize := htc
      _ ≤ s.backing.length - s.bufferOffset - s.pos % s.sectorSize :=
          Nat.sub_le_sub_right hbv _
      _ = s.backing.length - (s.bufferOffset + s.pos % s.sectorSize) := by
          rw [Nat.sub_sub]
      _ = s.backing.length - s.pos := by rw [hbo, hpos]
  constructor
  · rw [hdropped, List.take_take]
    congr 1
    exact Nat.min_eq_left htc2
  · rw [List.length_take, hdropped, List.length_take, List.length_drop]
    exact Nat.min_eq_left (le_min htc2 hB)

/-- The serve-or-retry tail of `SectorReader::read`, for a state whose
staging window is valid and caches the sector containing the position. -/
theorem srServe_spec (fuel : Nat)
    (ih : ∀ (s : SectorReader) (n : Nat) (bs : List Nat) (s2 : SectorReader),
      srWF s → srRead fuel s n = some (bs, s2) →
      bs = (s.backing.drop s.pos).take bs.length ∧
      s2.pos = s.pos + bs.length ∧ s2.backing = s.backing ∧
      s2.sectorSize = s.sectorSize ∧ srWF s2)
    (t : SectorReader) (n : Nat) (bs : List Nat) (s2 : SectorReader)
    (hwt : srWF t) (hvt : t.bufferValid ≠ 0)
    (hbot : t.bufferOffset = t.pos / t.sectorSize * t.sectorSize)
    (h : (if min n (t.bufferValid - t.pos % t.sectorSize) = 0 ∧
            t.bufferValid - t.pos % t.sectorSize = 0 then
            srRead fuel { t with bufferValid := 0 } n
          else
            some ((t.cache.drop (t.pos % t.sectorSize)).take
                (min n (t.bufferValid - t.pos % t.sectorSize)),
              { t with
                pos := t.pos + min n (t.bufferValid - t.pos % t.sectorSize) }))
          = some (bs, s2)) :
    bs = (t.backing.drop t.pos).take bs.length ∧
    s2.pos = t.pos + bs.length ∧ s2.backing = t.backing ∧
    s2.sectorSize = t.sectorSize ∧ srWF s2 := by
  by_cases hav : min n (t.bufferValid - t.pos % t.sectorSize) = 0 ∧
      t.bufferValid - t.pos % t.sectorSize = 0
  · rw [if_pos hav] at h
    obtain ⟨h1, h2, h3, h4, h5⟩ := ih { t with bufferValid := 0 } n bs s2
      ⟨hwt.1, by simp⟩ h
    exact ⟨h1, h2, h3, h4, h5⟩
  · rw [if_neg hav] at h
    simp only [Option.some.injEq, Prod.mk.injEq] at h
    obtain ⟨hbs, hs2⟩ := h
    have hsl := cache_slice t (min n (t.bufferValid - t.pos % t.sectorSize))
      hwt hvt hbot (Nat.min_le_right _ _)
    subst hs2
    refine ⟨?_, ?_, rfl, rfl, ⟨hwt.1, hwt.2⟩⟩
    · rw [← hbs, hsl.2]
      exact hsl.1
    · show t.pos + min n (t.bufferValid - t.pos % t.sectorSize) =
        t.pos + bs.length
      rw [← hbs, hsl.2]

/-- One successful `SectorReader::read` returns exactly the backing bytes
at the logical position, advances the position by the bytes returned, and
preserves the invariant. -/
theorem srRead_spec :
    ∀ (fuel : Nat) (s : SectorReader) (n : Nat) (bs : List Nat)
      (s2 : SectorReader), srWF s → srRead fuel s n = some (bs, s2) →
      bs = (s.backing.drop s.pos).take bs.length ∧
      s2.pos = s.pos + bs.length ∧ s2.backing = s.backing ∧
      s2.sectorSize = s.sectorSize ∧ srWF s2 := by
  intro fuel
  induction fuel with
  | zero =>
    intro s n bs s2 _ h
    simp [srRead] at h
  | succ fuel ih =>
    intro s n bs s2 hwf h
    simp only [srRead] at h
    by_cases hn : n = 0
    · rw [if_pos hn] at h
      simp only [Option.some.injEq, Prod.mk.injEq] at h
      obtain ⟨hbs, hs2⟩ := h
      subst hbs; subst hs2
      simpa using hwf
    · rw [if_neg hn] at h
      by_cases hR : s.bufferValid = 0 ∨
          s.bufferOffset ≠ s.pos / s.sectorSize * s.sectorSize
      · rw [if_pos hR] at h
        by_cases hz :
            (((s.backing.drop (s.pos / s.sectorSize * s.sectorSize)).take
              s.sectorSize).length) = 0
        · rw [if_pos (by exact ⟨hR, hz⟩)] at h
          simp only [Option.some.injEq, Prod.mk.injEq] at h
          obtain ⟨hbs, hs2⟩ := h
          subst hbs; subst hs2
          refine ⟨by simp, by simp, rfl, rfl, hwf.1, ?_⟩
          intro hvv
          exact absurd hz (by simpa using hvv)
        · rw [if_neg (by exact fun hand => hz hand.2)] at h
          exact srServe_spec fuel ih
            { s with
              cache := (s.backing.drop
                (s.pos / s.sectorSize * s.sectorSize)).take s.sectorSize,
              bufferValid := ((s.backing.drop
                (s.pos / s.sectorSize * s.sectorSize)).take
                  s.sectorSize).length,
              bufferOffset := s.pos / s.sectorSize * s.sectorSize }
            n bs s2 ⟨hwf.1, fun _ => ⟨rfl, rfl⟩⟩ hz rfl h
      · rw [if_neg hR] at h
        rw [if_neg (fun hand => hR hand.1)] at h
        push_neg at hR
        exact srServe_spec fuel ih s n bs s2 hwf hR.1 hR.2 h

/-- A successful sequence of reads concatenates to a contiguous slice of
the backing buffer starting at the initial position. -/
theorem srReadSeq_spec (fuel : Nat) :
    ∀ (ns : List Nat) (s : SectorReader) (out : List Nat)
      (s2 : SectorReader), srWF s →
      srReadSeq fuel s ns = some (out, s2) →
      out = (s.backing.drop s.pos).take out.length ∧
      s2.pos = s.pos + out.length ∧ s2.backing = s.backing ∧ srWF s2 := by
  intro ns
  induction ns with
  | nil =>
    intro s out s2 hwf h
    simp only [srReadSeq, Option.some.injEq, Prod.mk.injEq] at h
    obtain ⟨ho, hs⟩ := h
    subst ho; subst hs
    simpa using hwf
  | cons n ns ih =>
    intro s out s2 hwf h
    simp only [srReadSeq] at h
    cases h1 : srRead fuel s n with
    | none => rw [h1] at h; simp at h
    | some p =>
      obtain ⟨bs, s1⟩ := p
      rw [h1] at h
      dsimp only at h
      cases h2 : srReadSeq fuel s1 ns with
      | none => rw [h2] at h; simp at h
      | some q =>
        obtain ⟨rest, s3⟩ := q
        rw [h2] at h
        dsimp only at h
        simp only [Option.some.injEq, Prod.mk.injEq] at h
        obtain ⟨hout, hs3⟩ := h
        subst hs3
        obtain ⟨hb1, hp1, hback1, _, hwf1⟩ :=
          srRead_spec fuel s n bs s1 hwf h1
        obtain ⟨hb2, hp2, hback2, hwf2⟩ := ih s1 rest s3 hwf1 h2
        subst hout
        refine ⟨?_, ?_, hback2.trans hback1, hwf2⟩
        · rw [List.length_append, List.take_add, List.drop_drop, ← hb1]
          rw [hback1, hp1] at hb2
          rw [← hb2]
        · rw [List.length_append, hp2, hp1]
          omega

/-- Claim C6: For every backing buffer wrapped in a `SectorReader`, every
starting position set by `seek`, and every successful sequence of `read`
calls, the concatenation of the bytes returned equals the backing slice
from the start position of the total length read — in particular two
sequential reads spanning a sector boundary return the same bytes as one
unbuffered read of the combined length. -/
theorem sector_reader_reads_slice (backing : List Nat)
    (ss start fuel : Nat) (ns : List Nat) (out : List Nat)
    (s2 : SectorReader) (hss : 0 < ss)
    (h : srReadSeq fuel (srSeekStart (SectorReader.new backing ss) start) ns
      = some (out, s2)) :
    out = (backing.drop start).take out.length := by
  have hwf : srWF (srSeekStart (SectorReader.new backing ss) start) := by
    refine ⟨hss, ?_⟩
    intro hv
    simp [SectorReader.new, srSeekStart] at hv
  obtain ⟨h1, _, _, _⟩ := srReadSeq_spec fuel ns _ out s2 hwf h
  simpa [SectorReader.new, srSeekStart] using h1

/-- Witness for C6: starting at position 2 of a ten-byte buffer with
sector size 4, reads of 3 and then 4 bytes cross the sector boundary and
concatenate to the backing slice of the total length actually read. -/
theorem sector_reader_reads_slice_witness :
    ([2, 3, 4, 5, 6, 7] : List Nat) =
      (([0, 1, 2, 3, 4, 5, 6, 7, 8, 9] : List Nat).drop 2).take 6 :=
  sector_reader_reads_slice [0, 1, 2, 3, 4, 5, 6, 7, 8, 9] 4 2 10 [3, 4]
    [2, 3, 4, 5, 6, 7]
    { backing := [0, 1, 2, 3, 4, 5, 6, 7, 8, 9], sectorSize := 4,
      cache := [4, 5, 6, 7], bufferOffset := 4, bufferValid := 4, pos := 8 }
    (by decide) (by rfl)

end OxI
